import Mathlib

/-!
Verification development for the docpeak word-detection and
dictionary-cache logic.

The definitions below are a shallow embedding of the TypeScript sources:

- src/hooks/useWordDetection.ts : pointer-to-word resolution
  (extractWordAtPosition, findWordAtMousePosition, isEnglishWord,
  cleanWord), with font measurement abstracted as a width function.
- src/services/ollamaService.ts : the DictionaryService cache
  (getCachedEntry, setCacheEntry, evictLeastRecentlyUsed,
  fetchWordDefinition, cleanupExpiredEntries, clearCache,
  loadCacheFromStorage), with the JavaScript Map modelled as an
  association list in insertion order and the external fetch outcome
  passed in as an explicit parameter. The requestsSent field counts
  outbound dictionary requests performed by a call.
- src/hooks/useDictionary.ts : the fetchDefinition caller state.
-/

namespace Docpeak

/-! ## JavaScript string primitives -/

/-- Whitespace class of JavaScript regular expressions. -/
def jsIsWhitespace (c : Char) : Bool :=
  c == ' ' || c == '\t' || c == '\n' || c == '\r' ||
  c.toNat == 11 || c.toNat == 12 ||
  c.toNat == 0xa0 || c.toNat == 0x1680 ||
  (decide (0x2000 ≤ c.toNat) && decide (c.toNat ≤ 0x200a)) ||
  c.toNat == 0x2028 || c.toNat == 0x2029 || c.toNat == 0x202f ||
  c.toNat == 0x205f || c.toNat == 0x3000 || c.toNat == 0xfeff

/-- Embedding of the JavaScript String.prototype.trim method. -/
def jsTrim (s : String) : String :=
  String.mk (((s.toList.dropWhile jsIsWhitespace).reverse.dropWhile jsIsWhitespace).reverse)

/-- Embedding of String.prototype.toLowerCase restricted to ASCII. -/
def jsToLowerCase (s : String) : String :=
  String.mk (s.toList.map Char.toLower)

/-! ## Word detection (src/hooks/useWordDetection.ts) -/

/-- Punctuation characters stripped by isEnglishWord. -/
def isPunctChar (c : Char) : Bool :=
  c == '.' || c == ',' || c == ';' || c == ':' || c == '!' || c == '?' ||
  c == '\'' || c == '"' || c == '(' || c == ')' ||
  c == '[' || c == ']' || c == '{' || c == '}'

/-- Test used by the source: strip common punctuation, then require a
nonempty all-ASCII-alphabetic remainder of length above one. -/
def isEnglishWord (s : String) : Bool :=
  let cleaned := s.toList.filter (fun c => !(isPunctChar c))
  (!(cleaned.isEmpty)) && cleaned.all Char.isAlpha && decide (1 < cleaned.length)

/-- Character class of the regex word class: ASCII letters, digits and
the underscore. -/
def isWordChar (c : Char) : Bool :=
  c.isAlphanum || c == '_'

/-- Embedding of cleanWord: drop every character outside the regex word
class, then lowercase. -/
def cleanWord (s : String) : String :=
  String.mk ((s.toList.filter isWordChar).map Char.toLower)

/-- Modelled from the spec, as amended: normalization keeps ASCII
letters, digits and the underscore and lowercases them, dropping
everything else. Written as a fold to compare against cleanWord. -/
def specNormalize (s : String) : String :=
  String.mk (s.toList.foldr
    (fun c acc => if (c.isAlpha || c.isDigit) || c == '_' then c.toLower :: acc else acc) [])

/-- Maximal runs of characters sharing one whitespace classification,
tagged with that classification. -/
def addRunChar (c : Char) (acc : List (Bool × List Char)) : List (Bool × List Char) :=
  match acc with
  | (b, run) :: rest =>
    if b == jsIsWhitespace c then (b, c :: run) :: rest
    else (jsIsWhitespace c, [c]) :: (b, run) :: rest
  | [] => [(jsIsWhitespace c, [c])]

/-- Group a character list into runs. -/
def groupRuns (cs : List Char) : List (Bool × List Char) :=
  cs.foldr addRunChar []

/-- Alternating token list of the JavaScript split on a whitespace
capture group: separators are kept, and an empty token appears before a
leading separator and after a trailing one. -/
def runsToTokens (runs : List (Bool × List Char)) : List String :=
  let core := runs.map (fun r => String.mk r.2)
  let withHead :=
    match runs with
    | (true, _) :: _ => "" :: core
    | _ => core
  match runs.getLast? with
  | some (true, _) => withHead ++ [""]
  | _ => withHead

/-- Embedding of the split retaining whitespace separators. -/
def splitKeepWS (s : String) : List String :=
  match groupRuns s.toList with
  | [] => [""]
  | runs => runsToTokens runs

/-- Embedding of the plain whitespace split applied to trimmed text. -/
def splitOnWS (s : String) : List String :=
  if s.toList.isEmpty then [""]
  else (groupRuns s.toList).filterMap
    (fun r => if r.1 then none else some (String.mk r.2))

/-- Screen-space rectangle of a text run. -/
structure Rect where
  left : Int
  top : Int
  width : Int
  height : Int
deriving Repr, DecidableEq

/-- Resolved word with its bounding box. -/
structure WordHit where
  word : String
  x : Int
  y : Int
  width : Int
  height : Int
deriving Repr, DecidableEq

/-- Loop of findWordAtMousePosition: walk the tokens left to right,
skipping whitespace tokens while advancing the accumulated width, and
return the first word token whose horizontal span contains the pointer
offset. -/
def findWordGo (measure : String → Nat) (rect : Rect) (relativeX : Int) :
    List String → Int → Option WordHit
  | [], _ => none
  | w :: rest, acc =>
    if (!(w.toList.isEmpty)) && w.toList.all jsIsWhitespace then
      findWordGo measure rect relativeX rest (acc + (measure w : Int))
    else
      if acc ≤ relativeX ∧ relativeX ≤ acc + (measure w : Int) then
        some { word := jsTrim w, x := rect.left + acc, y := rect.top,
               width := (measure w : Int), height := rect.height }
      else findWordGo measure rect relativeX rest (acc + (measure w : Int))

/-- Embedding of findWordAtMousePosition. The measure argument stands
for the hidden measurement surface width of a token under the run font;
rendered widths are nonnegative, hence the Nat codomain. -/
def findWordAtMousePosition (measure : String → Nat) (rect : Rect)
    (text : String) (mouseX : Int) : Option WordHit :=
  findWordGo measure rect (mouseX - rect.left) (splitKeepWS text) 0

/-- Total width accumulated over every token of a text, separators
included. -/
def runWidth (measure : String → Nat) (text : String) : Int :=
  ((splitKeepWS text).map (fun t => (measure t : Int))).sum

/-- Embedding of extractWordAtPosition restricted to its pure core: the
text content and bounding rectangle of the hovered text element are
inputs. -/
def extractWordAtPosition (measure : String → Nat) (rect : Rect)
    (content : String) (mouseX : Int) : Option WordHit :=
  let text := jsTrim content
  let words := splitOnWS text
  if 1 < words.length then
    match findWordAtMousePosition measure rect text mouseX with
    | some wi =>
      if isEnglishWord wi.word then
        some { wi with word := cleanWord wi.word }
      else none
    | none => none
  else
    match words with
    | [w] =>
      if isEnglishWord w then
        some { word := cleanWord w, x := rect.left, y := rect.top,
               width := rect.width, height := rect.height }
      else none
    | _ => none

/-! ## Dictionary service (src/services/ollamaService.ts) -/

/-- Parsed dictionary definition returned to callers. -/
structure WordDefinition where
  word : String
  definitions : List String
  phonetics : String
  partOfSpeech : String
deriving Repr, DecidableEq

/-- Cache entry of the DictionaryService. -/
structure CacheEntry where
  value : WordDefinition
  timestamp : Int
  accessCount : Nat
deriving Repr, DecidableEq

/-- Observability counters of the DictionaryService. -/
structure CacheStats where
  hits : Nat
  misses : Nat
  entries : Nat
deriving Repr, DecidableEq

/-- Bound maxCacheSize of the source. -/
def maxCacheSize : Nat := 1000

/-- Expiry window cacheExpirationMs of the source: 24 hours. -/
def cacheExpirationMs : Int := 24 * 60 * 60 * 1000

/-- State of the DictionaryService: the Map is an association list in
insertion order. -/
structure DictState where
  cache : List (String × CacheEntry)
  stats : CacheStats
deriving Repr, DecidableEq

/-- Map.get on the association list. -/
def mapGet : List (String × CacheEntry) → String → Option CacheEntry
  | [], _ => none
  | kv :: rest, k => if kv.1 = k then some kv.2 else mapGet rest k

/-- Map.set on the association list: update in place when present,
append when absent. -/
def mapSet : List (String × CacheEntry) → String → CacheEntry → List (String × CacheEntry)
  | [], k, v => [(k, v)]
  | kv :: rest, k, v => if kv.1 = k then (k, v) :: rest else kv :: mapSet rest k v

/-- Map.delete on the association list. Written recursively; since the
keys of a Map are pairwise distinct this removes the one binding of the
key. -/
def mapDelete : List (String × CacheEntry) → String → List (String × CacheEntry)
  | [], _ => []
  | kv :: rest, k => if kv.1 = k then mapDelete rest k else kv :: mapDelete rest k

/-- One step of the eviction scan. The accumulator holds the selected
key with its access count and timestamp, or none before the first
entry, matching the Infinity initialisation of the source. -/
def evictStep (acc : Option (String × Nat × Int)) (kv : String × CacheEntry) :
    Option (String × Nat × Int) :=
  match acc with
  | none => some (kv.1, kv.2.accessCount, kv.2.timestamp)
  | some (k, minAC, oldTS) =>
    if kv.2.accessCount < minAC ∨ (kv.2.accessCount = minAC ∧ kv.2.timestamp < oldTS) then
      some (kv.1, kv.2.accessCount, kv.2.timestamp)
    else some (k, minAC, oldTS)

/-- Key selected by the eviction scan of evictLeastRecentlyUsed. -/
def evictKeyOf (m : List (String × CacheEntry)) : Option String :=
  (m.foldl evictStep none).map (fun r => r.1)

/-- Embedding of evictLeastRecentlyUsed. The source guards the delete
with a truthiness test on the selected key, so an empty-string key is
never deleted. -/
def evictLeastRecentlyUsed (m : List (String × CacheEntry)) : List (String × CacheEntry) :=
  match evictKeyOf m with
  | none => m
  | some k => if k = "" then m else mapDelete m k

/-- Embedding of getCachedEntry: returns the updated state and the
entry found, removing an expired entry on read. -/
def getCachedEntry (s : DictState) (now : Int) (word : String) :
    DictState × Option CacheEntry :=
  match mapGet s.cache word with
  | none => (s, none)
  | some entry =>
    if cacheExpirationMs < now - entry.timestamp then
      let cache2 := mapDelete s.cache word
      ({ cache := cache2, stats := { s.stats with entries := cache2.length } }, none)
    else (s, some entry)

/-- Raw definition object of the dictionary API. -/
structure DictionaryAPIDefinition where
  definition : String
deriving Repr, DecidableEq

/-- Raw meaning object of the dictionary API. -/
structure DictionaryAPIMeaning where
  partOfSpeech : String
  definitions : List DictionaryAPIDefinition
deriving Repr, DecidableEq

/-- Raw phonetic object of the dictionary API. -/
structure DictionaryAPIPhonetic where
  text : String
deriving Repr, DecidableEq

/-- Raw entry object of the dictionary API. -/
structure DictionaryAPIEntry where
  meanings : List DictionaryAPIMeaning
  phonetics : List DictionaryAPIPhonetic
deriving Repr, DecidableEq

/-- Definition texts collected across meanings: up to three per
meaning, skipping falsy texts. -/
def collectDefinitions (meanings : List DictionaryAPIMeaning) : List String :=
  meanings.foldl
    (fun acc meaning =>
      acc ++ ((meaning.definitions.take 3).filter
        (fun d => d.definition != "")).map (fun d => d.definition)) []

/-- First truthy part of speech across meanings in source order. -/
def firstPartOfSpeech (meanings : List DictionaryAPIMeaning) : String :=
  meanings.foldl
    (fun acc meaning =>
      if acc = "" ∧ meaning.partOfSpeech ≠ "" then meaning.partOfSpeech else acc) ""

/-- First truthy phonetic text. -/
def firstPhonetic (phonetics : List DictionaryAPIPhonetic) : String :=
  match phonetics.find? (fun p => p.text != "") with
  | some p => p.text
  | none => ""

/-- Construction of the WordDefinition from the first API entry,
capping the collected definition texts at three. -/
def buildWordDefinition (normalizedWord : String) (entry : DictionaryAPIEntry) : WordDefinition :=
  { word := normalizedWord
    definitions := (collectDefinitions entry.meanings).take 3
    phonetics := firstPhonetic entry.phonetics
    partOfSpeech := firstPartOfSpeech entry.meanings }

/-- Embedding of setCacheEntry: evict when at capacity, then insert a
fresh entry and refresh the entries counter. -/
def setCacheEntry (s : DictState) (now : Int) (word : String)
    (definition : WordDefinition) : DictState :=
  let cache1 :=
    if maxCacheSize ≤ s.cache.length then evictLeastRecentlyUsed s.cache else s.cache
  let cache2 := mapSet cache1 word { value := definition, timestamp := now, accessCount := 1 }
  { cache := cache2, stats := { s.stats with entries := cache2.length } }

/-- Outcome of the outbound dictionary request, supplied by the
environment: a thrown transport or parse error, a non-2xx response, a
parsed body that is not a nonempty array, or a parsed entry array. -/
inductive FetchResult where
  | transportError : FetchResult
  | httpError : FetchResult
  | jsonNonArray : FetchResult
  | jsonArray : List DictionaryAPIEntry → FetchResult
deriving Repr, DecidableEq

/-- Result of one fetchWordDefinition call: the next service state, the
value the returned promise resolves to, and the number of outbound
requests issued. -/
structure FetchWordOutcome where
  state : DictState
  result : Option WordDefinition
  requestsSent : Nat
deriving Repr, DecidableEq

/-- Embedding of fetchWordDefinition. Transport errors are caught by
the source and mapped to a null result, so every branch resolves. -/
def fetchWordDefinition (s : DictState) (now : Int) (oracle : FetchResult)
    (word : String) : FetchWordOutcome :=
  let normalizedWord := jsTrim (jsToLowerCase word)
  let g := getCachedEntry s now normalizedWord
  match g.2 with
  | some entry =>
    { state :=
        { cache := mapSet g.1.cache normalizedWord { entry with accessCount := entry.accessCount + 1 }
          stats := { g.1.stats with hits := g.1.stats.hits + 1 } }
      result := some entry.value
      requestsSent := 0 }
  | none =>
    let s2 : DictState := { g.1 with stats := { g.1.stats with misses := g.1.stats.misses + 1 } }
    match oracle with
    | FetchResult.transportError => { state := s2, result := none, requestsSent := 1 }
    | FetchResult.httpError => { state := s2, result := none, requestsSent := 1 }
    | FetchResult.jsonNonArray => { state := s2, result := none, requestsSent := 1 }
    | FetchResult.jsonArray [] => { state := s2, result := none, requestsSent := 1 }
    | FetchResult.jsonArray (entry :: _) =>
      let wd := buildWordDefinition normalizedWord entry
      { state := setCacheEntry s2 now normalizedWord wd
        result := some wd
        requestsSent := 1 }

/-- Embedding of cleanupExpiredEntries. -/
def cleanupExpiredEntries (s : DictState) (now : Int) : DictState :=
  let expiredKeys :=
    (s.cache.filter (fun kv => decide (cacheExpirationMs < now - kv.2.timestamp))).map
      (fun kv => kv.1)
  let cache2 := expiredKeys.foldl (fun c k => mapDelete c k) s.cache
  if 0 < expiredKeys.length then
    { cache := cache2, stats := { s.stats with entries := cache2.length } }
  else s

/-- Embedding of clearCache. -/
def clearCache (_ : DictState) : DictState :=
  { cache := [], stats := { hits := 0, misses := 0, entries := 0 } }

/-- Well-formed persisted snapshot shape. -/
structure StoredData where
  cache : List (String × CacheEntry)
  stats : CacheStats
deriving Repr, DecidableEq

/-- Embedding of loadCacheFromStorage: copy every stored entry into the
cache and take over the stored counters, with no size enforcement. -/
def loadCacheFromStorage (s : DictState) (stored : Option StoredData) : DictState :=
  match stored with
  | none => s
  | some data =>
    { cache := data.cache.foldl (fun c kv => mapSet c kv.1 kv.2) s.cache
      stats := data.stats }

/-- Service state at construction before any rehydration. -/
def initialDictState : DictState :=
  { cache := [], stats := { hits := 0, misses := 0, entries := 0 } }

/-! ## Caller state (src/hooks/useDictionary.ts) -/

/-- Caller-visible state of the useDictionary hook. -/
structure DictionaryState where
  definition : Option WordDefinition
  loading : Bool
  error : Option String
deriving Repr, DecidableEq

/-- Result of one fetchDefinition call of the hook. -/
structure FetchDefinitionOutcome where
  visible : DictionaryState
  service : DictState
  requestsSent : Nat
deriving Repr, DecidableEq

/-- Embedding of the fetchDefinition callback: guard on short input,
then delegate to the service and map its resolved value to the visible
state. The catch branch of the source is unreachable because the
service call always resolves. -/
def fetchDefinition (s : DictState) (now : Int) (oracle : FetchResult)
    (word : String) : FetchDefinitionOutcome :=
  if word = "" ∨ word.length < 2 then
    { visible := { definition := none, loading := false, error := none }
      service := s, requestsSent := 0 }
  else
    let r := fetchWordDefinition s now oracle word
    match r.result with
    | some d =>
      { visible := { definition := some d, loading := false, error := none }
        service := r.state, requestsSent := r.requestsSent }
    | none =>
      { visible := { definition := none, loading := false, error := some "Word not found" }
        service := r.state, requestsSent := r.requestsSent }

/-! ## Concrete inputs used by witnesses and counterexamples -/

/-- Placeholder definition value. -/
def dummyDef : WordDefinition :=
  { word := "x", definitions := [], phonetics := "", partOfSpeech := "" }

/-- Key consisting of n copies of the letter a. -/
def aKey (n : Nat) : String := String.mk (List.replicate n 'a')

/-- Nodup-keys predicate of a cache list. -/
def keysNodup (m : List (String × CacheEntry)) : Prop :=
  (m.map (fun kv => kv.1)).Nodup

/-- Full cache whose eviction scan selects the empty-string key. -/
def c2State : DictState :=
  { cache :=
      ("", { value := dummyDef, timestamp := 0, accessCount := 1 }) ::
        (List.range 999).map
          (fun i => (aKey (i + 1), { value := dummyDef, timestamp := 100, accessCount := 1 }))
    stats := { hits := 0, misses := 0, entries := 1000 } }

/-- Full cache with nonempty pairwise distinct keys. -/
def c2WitState : DictState :=
  { cache :=
      (List.range 1000).map
        (fun i => (aKey (i + 1), { value := dummyDef, timestamp := Int.ofNat i, accessCount := 1 }))
    stats := { hits := 0, misses := 0, entries := 1000 } }

/-- Stored snapshot holding more entries than the cache bound. -/
def c4Stored : StoredData :=
  { cache :=
      (List.range 1001).map
        (fun i => (aKey i, { value := dummyDef, timestamp := 0, accessCount := 1 }))
    stats := { hits := 0, misses := 0, entries := 1001 } }

/-- Entry created at time zero. -/
def staleEntry : CacheEntry := { value := dummyDef, timestamp := 0, accessCount := 1 }

/-- One-entry service state keyed by the word stale. -/
def staleState : DictState :=
  { cache := [("stale", staleEntry)], stats := { hits := 0, misses := 0, entries := 1 } }

/-- Width function used by concrete witnesses. -/
def c7Measure (s : String) : Nat := s.length * 10

/-- Rectangle used by concrete witnesses. -/
def c7Rect : Rect := { left := 100, top := 0, width := 300, height := 20 }

end Docpeak

namespace Docpeak

/-! ## Association list lemmas -/

theorem mapGet_mapSet_self (m : List (String × CacheEntry)) (k : String) (v : CacheEntry) :
    mapGet (mapSet m k v) k = some v := by
  induction m with
  | nil => simp [mapGet, mapSet]
  | cons kv rest ih =>
    by_cases h : kv.1 = k
    · simp [mapGet, mapSet, h]
    · simp [mapGet, mapSet, h, ih]

theorem mapGet_mapSet_ne (m : List (String × CacheEntry)) (k k2 : String) (v : CacheEntry)
    (h : k2 ≠ k) : mapGet (mapSet m k v) k2 = mapGet m k2 := by
  have h3 : k ≠ k2 := Ne.symm h
  induction m with
  | nil => simp [mapGet, mapSet, h3]
  | cons kv rest ih =>
    by_cases hk : kv.1 = k
    · have hk2 : kv.1 ≠ k2 := by rw [hk]; exact h3
      simp [mapGet, mapSet, hk, h3, hk2, h]
    · by_cases hk2 : kv.1 = k2
      · simp [mapGet, mapSet, hk, hk2, h]
      · simp [mapGet, mapSet, hk, hk2, ih]

theorem length_mapSet_of_get_some (m : List (String × CacheEntry)) (k : String)
    (v e : CacheEntry) (h : mapGet m k = some e) :
    (mapSet m k v).length = m.length := by
  induction m with
  | nil => simp [mapGet] at h
  | cons kv rest ih =>
    by_cases hk : kv.1 = k
    · simp [mapSet, hk]
    · simp [mapGet, hk] at h
      simp [mapSet, hk, ih h]

theorem length_mapSet_of_get_none (m : List (String × CacheEntry)) (k : String)
    (v : CacheEntry) (h : mapGet m k = none) :
    (mapSet m k v).length = m.length + 1 := by
  induction m with
  | nil => simp [mapSet]
  | cons kv rest ih =>
    by_cases hk : kv.1 = k
    · simp [mapGet, hk] at h
    · simp [mapGet, hk] at h
      simp [mapSet, hk, ih h]

theorem length_mapSet_le (m : List (String × CacheEntry)) (k : String) (v : CacheEntry) :
    (mapSet m k v).length ≤ m.length + 1 := by
  cases h : mapGet m k with
  | none => simp [length_mapSet_of_get_none m k v h]
  | some e => simp [length_mapSet_of_get_some m k v e h]

theorem mapGet_mapDelete_self (m : List (String × CacheEntry)) (k : String) :
    mapGet (mapDelete m k) k = none := by
  induction m with
  | nil => simp [mapGet, mapDelete]
  | cons kv rest ih =>
    by_cases hk : kv.1 = k
    · simpa [mapDelete, hk] using ih
    · simp [mapDelete, hk, mapGet, ih]

theorem mapGet_mapDelete_ne (m : List (String × CacheEntry)) (k k2 : String)
    (h : k2 ≠ k) : mapGet (mapDelete m k) k2 = mapGet m k2 := by
  have h3 : k ≠ k2 := Ne.symm h
  induction m with
  | nil => simp [mapGet, mapDelete]
  | cons kv rest ih =>
    by_cases hk : kv.1 = k
    · have hk2 : kv.1 ≠ k2 := by rw [hk]; exact h3
      simp [mapDelete, hk, mapGet, hk2, h3, ih]
    · by_cases hk2 : kv.1 = k2
      · simp [mapDelete, hk, mapGet, hk2, h]
      · simp [mapDelete, hk, mapGet, hk2, ih]

theorem length_mapDelete_le (m : List (String × CacheEntry)) (k : String) :
    (mapDelete m k).length ≤ m.length := by
  induction m with
  | nil => simp [mapDelete]
  | cons kv rest ih =>
    by_cases hk : kv.1 = k
    · simp [mapDelete, hk]
      omega
    · simp [mapDelete, hk]
      omega

theorem mapGet_some_mem (m : List (String × CacheEntry)) (k : String) (e : CacheEntry)
    (h : mapGet m k = some e) : (k, e) ∈ m := by
  induction m with
  | nil => simp [mapGet] at h
  | cons kv rest ih =>
    by_cases hk : kv.1 = k
    · simp [mapGet, hk] at h
      rw [← hk, ← h]
      simp
    · simp [mapGet, hk] at h
      exact List.mem_cons_of_mem _ (ih h)

theorem length_mapDelete_lt_of_get_some (m : List (String × CacheEntry)) (k : String)
    (e : CacheEntry) (h : mapGet m k = some e) :
    (mapDelete m k).length < m.length := by
  induction m with
  | nil => simp [mapGet] at h
  | cons kv rest ih =>
    by_cases hk : kv.1 = k
    · have := length_mapDelete_le rest k
      simp [mapDelete, hk]
      omega
    · simp [mapGet, hk] at h
      have := ih h
      simp [mapDelete, hk]
      omega

theorem mapGet_none_of_forall_ne (m : List (String × CacheEntry)) (k : String)
    (h : ∀ kv ∈ m, kv.1 ≠ k) : mapGet m k = none := by
  induction m with
  | nil => rfl
  | cons kv rest ih =>
    have h1 : kv.1 ≠ k := h kv (List.mem_cons_self _ _)
    simp [mapGet, h1]
    exact ih fun kv2 hm => h kv2 (List.mem_cons_of_mem _ hm)

theorem forall_ne_of_mapGet_none (m : List (String × CacheEntry)) (k : String)
    (h : mapGet m k = none) : ∀ kv ∈ m, kv.1 ≠ k := by
  induction m with
  | nil => simp
  | cons kv rest ih =>
    by_cases hk : kv.1 = k
    · simp [mapGet, hk] at h
    · simp [mapGet, hk] at h
      intro kv2 hm
      rcases List.mem_cons.mp hm with h2 | h2
      · rw [h2]; exact hk
      · exact ih h kv2 h2

theorem mapGet_of_mem_nodup (m : List (String × CacheEntry)) (k : String) (e : CacheEntry)
    (hnd : keysNodup m) (hmem : (k, e) ∈ m) : mapGet m k = some e := by
  induction m with
  | nil => simp at hmem
  | cons kv rest ih =>
    have hnd2 : kv.1 ∉ rest.map (fun kv => kv.1) ∧ keysNodup rest := by
      simpa [keysNodup, List.nodup_cons] using hnd
    rcases List.mem_cons.mp hmem with h2 | h2
    · rw [← h2]
      simp [mapGet]
    · have hk : kv.1 ≠ k := by
        intro hk
        exact hnd2.1 (by rw [hk]; exact List.mem_map.mpr ⟨(k, e), h2, rfl⟩)
      simp [mapGet, hk]
      exact ih hnd2.2 h2

theorem mapDelete_eq_self_of_get_none (m : List (String × CacheEntry)) (k : String)
    (h : mapGet m k = none) : mapDelete m k = m := by
  induction m with
  | nil => rfl
  | cons kv rest ih =>
    by_cases hk : kv.1 = k
    · simp [mapGet, hk] at h
    · simp [mapGet, hk] at h
      simp [mapDelete, hk, ih h]

theorem length_mapDelete_nodup (m : List (String × CacheEntry)) (k : String) (e : CacheEntry)
    (hnd : keysNodup m) (h : mapGet m k = some e) :
    (mapDelete m k).length + 1 = m.length := by
  induction m with
  | nil => simp [mapGet] at h
  | cons kv rest ih =>
    have hnd2 : kv.1 ∉ rest.map (fun kv => kv.1) ∧ keysNodup rest := by
      simpa [keysNodup, List.nodup_cons] using hnd
    by_cases hk : kv.1 = k
    · have hnone : mapGet rest k = none := by
        apply mapGet_none_of_forall_ne
        intro kv2 hm hk2
        exact hnd2.1 (by rw [hk, ← hk2]; exact List.mem_map.mpr ⟨kv2, hm, rfl⟩)
      simp [mapDelete, hk, mapDelete_eq_self_of_get_none rest k hnone]
    · simp [mapGet, hk] at h
      have := ih hnd2.2 h
      simp [mapDelete, hk]
      omega

/-! ## Lexicographic order helpers for the eviction scan -/

theorem lexLe_refl (a : Nat) (t : Int) : a < a ∨ (a = a ∧ t ≤ t) :=
  Or.inr ⟨rfl, le_refl _⟩

theorem lexLe_trans {a1 a2 a3 : Nat} {t1 t2 t3 : Int}
    (h1 : a1 < a2 ∨ (a1 = a2 ∧ t1 ≤ t2))
    (h2 : a2 < a3 ∨ (a2 = a3 ∧ t2 ≤ t3)) :
    a1 < a3 ∨ (a1 = a3 ∧ t1 ≤ t3) := by
  rcases h1 with h1 | ⟨h1, h1t⟩ <;> rcases h2 with h2 | ⟨h2, h2t⟩
  · exact Or.inl (lt_trans h1 h2)
  · exact Or.inl (h2 ▸ h1)
  · exact Or.inl (h1 ▸ h2)
  · exact Or.inr ⟨h1.trans h2, le_trans h1t h2t⟩

theorem lexLe_of_lexLt {a1 a2 : Nat} {t1 t2 : Int}
    (h : a1 < a2 ∨ (a1 = a2 ∧ t1 < t2)) :
    a1 < a2 ∨ (a1 = a2 ∧ t1 ≤ t2) := by
  rcases h with h | ⟨h, ht⟩
  · exact Or.inl h
  · exact Or.inr ⟨h, le_of_lt ht⟩

theorem lexLe_of_not_lexLt {a1 a2 : Nat} {t1 t2 : Int}
    (h : ¬(a2 < a1 ∨ (a2 = a1 ∧ t2 < t1))) :
    a1 < a2 ∨ (a1 = a2 ∧ t1 ≤ t2) := by
  push_neg at h
  rcases Nat.lt_or_ge a1 a2 with h3 | h3
  · exact Or.inl h3
  · have h4 : a2 = a1 := le_antisymm h3 h.1
    exact Or.inr ⟨h4.symm, h.2 h4⟩

/-! ## Eviction scan lemmas -/

theorem evict_fold_min (m : List (String × CacheEntry)) :
    ∀ (k : String) (ac : Nat) (ts : Int),
    ∃ k2 ac2 ts2,
      m.foldl evictStep (some (k, ac, ts)) = some (k2, ac2, ts2) ∧
      (ac2 < ac ∨ (ac2 = ac ∧ ts2 ≤ ts)) ∧
      ((k2 = k ∧ ac2 = ac ∧ ts2 = ts) ∨
        ∃ e, (k2, e) ∈ m ∧ e.accessCount = ac2 ∧ e.timestamp = ts2) ∧
      ∀ kv ∈ m, ac2 < kv.2.accessCount ∨
        (ac2 = kv.2.accessCount ∧ ts2 ≤ kv.2.timestamp) := by
  induction m with
  | nil =>
    intro k ac ts
    exact ⟨k, ac, ts, rfl, lexLe_refl ac ts, Or.inl ⟨rfl, rfl, rfl⟩, by simp⟩
  | cons kv rest ih =>
    intro k ac ts
    by_cases hc : kv.2.accessCount < ac ∨ (kv.2.accessCount = ac ∧ kv.2.timestamp < ts)
    · obtain ⟨k2, ac2, ts2, heq, hle, hmem, hmin⟩ := ih kv.1 kv.2.accessCount kv.2.timestamp
      refine ⟨k2, ac2, ts2, ?_, ?_, ?_, ?_⟩
      · simpa [List.foldl_cons, evictStep, hc] using heq
      · exact lexLe_trans hle (lexLe_of_lexLt hc)
      · right
        rcases hmem with ⟨hk2, hac2, hts2⟩ | ⟨e, hm, hac2, hts2⟩
        · exact ⟨kv.2, by simp [hk2], hac2.symm, hts2.symm⟩
        · exact ⟨e, List.mem_cons_of_mem _ hm, hac2, hts2⟩
      · intro kv2 hm
        rcases List.mem_cons.mp hm with h2 | h2
        · rw [h2]; exact hle
        · exact hmin kv2 h2
    · obtain ⟨k2, ac2, ts2, heq, hle, hmem, hmin⟩ := ih k ac ts
      refine ⟨k2, ac2, ts2, ?_, hle, ?_, ?_⟩
      · simpa [List.foldl_cons, evictStep, hc] using heq
      · rcases hmem with h2 | ⟨e, hm, hac2, hts2⟩
        · exact Or.inl h2
        · exact Or.inr ⟨e, List.mem_cons_of_mem _ hm, hac2, hts2⟩
      · intro kv2 hm
        rcases List.mem_cons.mp hm with h2 | h2
        · rw [h2]
          exact lexLe_trans hle (lexLe_of_not_lexLt hc)
        · exact hmin kv2 h2

theorem evictKeyOf_spec (m : List (String × CacheEntry)) (hne : m ≠ []) :
    ∃ k e, evictKeyOf m = some k ∧ (k, e) ∈ m ∧
      ∀ kv ∈ m, e.accessCount < kv.2.accessCount ∨
        (e.accessCount = kv.2.accessCount ∧ e.timestamp ≤ kv.2.timestamp) := by
  cases m with
  | nil => exact absurd rfl hne
  | cons kv rest =>
    obtain ⟨k2, ac2, ts2, heq, hle, hmem, hmin⟩ :=
      evict_fold_min rest kv.1 kv.2.accessCount kv.2.timestamp
    have hfold : (kv :: rest).foldl evictStep none = some (k2, ac2, ts2) := by
      simpa [List.foldl_cons, evictStep] using heq
    rcases hmem with ⟨hk2, hac2, hts2⟩ | ⟨e, hm, hac2, hts2⟩
    · refine ⟨k2, kv.2, by simp [evictKeyOf, hfold], by simp [hk2], ?_⟩
      intro kv2 hm2
      rcases List.mem_cons.mp hm2 with h2 | h2
      · rw [h2]
        exact lexLe_refl _ _
      · have h3 := hmin kv2 h2
        rw [hac2, hts2] at h3
        exact h3
    · refine ⟨k2, e, by simp [evictKeyOf, hfold], List.mem_cons_of_mem _ hm, ?_⟩
      rw [← hac2, ← hts2] at hle hmin
      intro kv2 hm2
      rcases List.mem_cons.mp hm2 with h2 | h2
      · rw [h2]
        exact hle
      · exact hmin kv2 h2

theorem evict_fold_keep (m : List (String × CacheEntry)) :
    ∀ (k : String) (ac : Nat) (ts : Int),
    (∀ kv ∈ m, ¬(kv.2.accessCount < ac ∨ (kv.2.accessCount = ac ∧ kv.2.timestamp < ts))) →
    m.foldl evictStep (some (k, ac, ts)) = some (k, ac, ts) := by
  induction m with
  | nil => intro k ac ts _; rfl
  | cons kv rest ih =>
    intro k ac ts h
    have h1 := h kv (List.mem_cons_self _ _)
    have h2 : ∀ kv2 ∈ rest, ¬(kv2.2.accessCount < ac ∨
        (kv2.2.accessCount = ac ∧ kv2.2.timestamp < ts)) :=
      fun kv2 hm => h kv2 (List.mem_cons_of_mem _ hm)
    simpa [List.foldl_cons, evictStep, h1] using ih k ac ts h2

/-! ## Cache operation lemmas -/

theorem getCachedEntry_some (s : DictState) (now : Int) (word : String) (entry : CacheEntry)
    (h : (getCachedEntry s now word).2 = some entry) :
    (getCachedEntry s now word).1 = s ∧ mapGet s.cache word = some entry ∧
      ¬ cacheExpirationMs < now - entry.timestamp := by
  cases hm : mapGet s.cache word with
  | none => simp [getCachedEntry, hm] at h
  | some e =>
    by_cases hexp : cacheExpirationMs < now - e.timestamp
    · simp [getCachedEntry, hm, hexp] at h
    · simp [getCachedEntry, hm, hexp] at h
      subst h
      exact ⟨by simp [getCachedEntry, hm, hexp], rfl, hexp⟩

theorem getCachedEntry_state_cases (s : DictState) (now : Int) (word : String) :
    (getCachedEntry s now word).1 = s ∨
    ((getCachedEntry s now word).1.cache = mapDelete s.cache word ∧
     (getCachedEntry s now word).1.stats.entries = (mapDelete s.cache word).length ∧
     (getCachedEntry s now word).1.stats.hits = s.stats.hits ∧
     (getCachedEntry s now word).1.stats.misses = s.stats.misses) := by
  cases hm : mapGet s.cache word with
  | none => left; simp [getCachedEntry, hm]
  | some e =>
    by_cases hexp : cacheExpirationMs < now - e.timestamp
    · right
      simp [getCachedEntry, hm, hexp]
    · left
      simp [getCachedEntry, hm, hexp]

theorem getCachedEntry_expired (s : DictState) (now : Int) (word : String) (entry : CacheEntry)
    (hget : mapGet s.cache word = some entry)
    (hexp : cacheExpirationMs < now - entry.timestamp) :
    (getCachedEntry s now word).2 = none ∧
    (getCachedEntry s now word).1.cache = mapDelete s.cache word ∧
    (getCachedEntry s now word).1.stats =
      { s.stats with entries := (mapDelete s.cache word).length } := by
  simp [getCachedEntry, hget, hexp]

theorem getCachedEntry_fresh (s : DictState) (now : Int) (word : String) (entry : CacheEntry)
    (hget : mapGet s.cache word = some entry)
    (hexp : ¬ cacheExpirationMs < now - entry.timestamp) :
    getCachedEntry s now word = (s, some entry) := by
  simp [getCachedEntry, hget, hexp]

theorem exists_mapGet_of_mem (m : List (String × CacheEntry)) (k : String) (e : CacheEntry)
    (hmem : (k, e) ∈ m) : ∃ e2, mapGet m k = some e2 := by
  induction m with
  | nil => simp at hmem
  | cons kv rest ih =>
    by_cases hk : kv.1 = k
    · exact ⟨kv.2, by simp [mapGet, hk]⟩
    · rcases List.mem_cons.mp hmem with h2 | h2
      · exact absurd (congrArg Prod.fst h2.symm) hk
      · obtain ⟨e2, h3⟩ := ih h2
        exact ⟨e2, by simp [mapGet, hk, h3]⟩

theorem setCacheEntry_cache (s : DictState) (now : Int) (word : String) (d : WordDefinition) :
    (setCacheEntry s now word d).cache =
      mapSet (if maxCacheSize ≤ s.cache.length then evictLeastRecentlyUsed s.cache else s.cache)
        word { value := d, timestamp := now, accessCount := 1 } := rfl

theorem setCacheEntry_entries (s : DictState) (now : Int) (word : String) (d : WordDefinition) :
    (setCacheEntry s now word d).stats.entries = (setCacheEntry s now word d).cache.length := rfl

theorem setCacheEntry_bound (s : DictState) (now : Int) (word : String) (d : WordDefinition)
    (hlen : s.cache.length ≤ maxCacheSize)
    (hne : ∀ kv ∈ s.cache, kv.1 ≠ "") :
    (setCacheEntry s now word d).cache.length ≤ maxCacheSize := by
  rw [setCacheEntry_cache]
  by_cases hful : maxCacheSize ≤ s.cache.length
  · have hlen1000 : s.cache.length = maxCacheSize := le_antisymm hlen hful
    have hnonnil : s.cache ≠ [] := by
      intro h0
      rw [h0] at hlen1000
      simp [maxCacheSize] at hlen1000
    obtain ⟨k, e, hkey, hmem, hmin⟩ := evictKeyOf_spec s.cache hnonnil
    have hkne : k ≠ "" := hne (k, e) hmem
    have hev : evictLeastRecentlyUsed s.cache = mapDelete s.cache k := by
      simp [evictLeastRecentlyUsed, hkey, hkne]
    obtain ⟨e2, hget⟩ := exists_mapGet_of_mem s.cache k e hmem
    have hdel := length_mapDelete_lt_of_get_some s.cache k e2 hget
    have hset := length_mapSet_le (mapDelete s.cache k)
      word { value := d, timestamp := now, accessCount := 1 }
    rw [if_pos hful, hev]
    omega
  · have hset := length_mapSet_le s.cache
      word { value := d, timestamp := now, accessCount := 1 }
    rw [if_neg hful]
    omega

/-! ## Unfolding lemmas for fetchWordDefinition -/

theorem fetchWordDefinition_hit (s : DictState) (now : Int) (oracle : FetchResult)
    (word : String) (entry : CacheEntry)
    (hget : mapGet s.cache (jsTrim (jsToLowerCase word)) = some entry)
    (hfresh : ¬ cacheExpirationMs < now - entry.timestamp) :
    fetchWordDefinition s now oracle word =
      { state :=
          { cache := mapSet s.cache (jsTrim (jsToLowerCase word))
              { entry with accessCount := entry.accessCount + 1 }
            stats := { s.stats with hits := s.stats.hits + 1 } }
        result := some entry.value
        requestsSent := 0 } := by
  have hg := getCachedEntry_fresh s now (jsTrim (jsToLowerCase word)) entry hget hfresh
  simp [fetchWordDefinition, hg]

theorem fetchWordDefinition_miss_err (s : DictState) (now : Int) (oracle : FetchResult)
    (word : String)
    (h : (getCachedEntry s now (jsTrim (jsToLowerCase word))).2 = none)
    (horacle : oracle = FetchResult.transportError ∨ oracle = FetchResult.httpError ∨
      oracle = FetchResult.jsonNonArray ∨ oracle = FetchResult.jsonArray []) :
    fetchWordDefinition s now oracle word =
      { state :=
          { cache := (getCachedEntry s now (jsTrim (jsToLowerCase word))).1.cache
            stats :=
              { (getCachedEntry s now (jsTrim (jsToLowerCase word))).1.stats with
                misses := (getCachedEntry s now (jsTrim (jsToLowerCase word))).1.stats.misses + 1 } }
        result := none
        requestsSent := 1 } := by
  rcases horacle with h2 | h2 | h2 | h2 <;> subst h2 <;> simp [fetchWordDefinition, h]

theorem fetchWordDefinition_miss_found (s : DictState) (now : Int) (word : String)
    (entry : DictionaryAPIEntry) (more : List DictionaryAPIEntry)
    (h : (getCachedEntry s now (jsTrim (jsToLowerCase word))).2 = none) :
    fetchWordDefinition s now (FetchResult.jsonArray (entry :: more)) word =
      { state :=
          setCacheEntry
            { (getCachedEntry s now (jsTrim (jsToLowerCase word))).1 with
              stats :=
                { (getCachedEntry s now (jsTrim (jsToLowerCase word))).1.stats with
                  misses := (getCachedEntry s now (jsTrim (jsToLowerCase word))).1.stats.misses + 1 } }
            now (jsTrim (jsToLowerCase word))
            (buildWordDefinition (jsTrim (jsToLowerCase word)) entry)
        result := some (buildWordDefinition (jsTrim (jsToLowerCase word)) entry)
        requestsSent := 1 } := by
  simp [fetchWordDefinition, h]

theorem setCacheEntry_misses (s : DictState) (now : Int) (word : String) (d : WordDefinition) :
    (setCacheEntry s now word d).stats.misses = s.stats.misses := rfl

theorem setCacheEntry_hits (s : DictState) (now : Int) (word : String) (d : WordDefinition) :
    (setCacheEntry s now word d).stats.hits = s.stats.hits := rfl

theorem fetchWordDefinition_misses_of_miss (s : DictState) (now : Int) (oracle : FetchResult)
    (word : String)
    (h : (getCachedEntry s now (jsTrim (jsToLowerCase word))).2 = none) :
    (fetchWordDefinition s now oracle word).state.stats.misses =
      (getCachedEntry s now (jsTrim (jsToLowerCase word))).1.stats.misses + 1 := by
  cases oracle with
  | transportError => rw [fetchWordDefinition_miss_err s now _ word h (Or.inl rfl)]
  | httpError => rw [fetchWordDefinition_miss_err s now _ word h (Or.inr (Or.inl rfl))]
  | jsonNonArray => rw [fetchWordDefinition_miss_err s now _ word h (Or.inr (Or.inr (Or.inl rfl)))]
  | jsonArray entries =>
    cases entries with
    | nil => rw [fetchWordDefinition_miss_err s now _ word h (Or.inr (Or.inr (Or.inr rfl)))]
    | cons e more => rw [fetchWordDefinition_miss_found s now word e more h]; rfl

theorem mem_mapDelete_subset (m : List (String × CacheEntry)) (k : String)
    (kv : String × CacheEntry) (h : kv ∈ mapDelete m k) : kv ∈ m := by
  induction m with
  | nil => simp [mapDelete] at h
  | cons kv2 rest ih =>
    by_cases hk : kv2.1 = k
    · simp [mapDelete, hk] at h
      exact List.mem_cons_of_mem _ (ih h)
    · simp [mapDelete, hk] at h
      rcases h with h2 | h2
      · rw [h2]; exact List.mem_cons_self _ _
      · exact List.mem_cons_of_mem _ (ih h2)

theorem foldl_mapDelete_le (l : List String) :
    ∀ c : List (String × CacheEntry), (l.foldl (fun c k => mapDelete c k) c).length ≤ c.length := by
  induction l with
  | nil => intro c; simp
  | cons k rest ih =>
    intro c
    calc (rest.foldl (fun c k => mapDelete c k) (mapDelete c k)).length
        ≤ (mapDelete c k).length := ih (mapDelete c k)
      _ ≤ c.length := length_mapDelete_le c k

theorem getCachedEntry_cache_le (s : DictState) (now : Int) (word : String) :
    (getCachedEntry s now word).1.cache.length ≤ s.cache.length := by
  rcases getCachedEntry_state_cases s now word with h | ⟨h, _⟩
  · rw [h]
  · rw [h]
    exact length_mapDelete_le s.cache word

theorem getCachedEntry_keys_subset (s : DictState) (now : Int) (word : String)
    (kv : String × CacheEntry) (h : kv ∈ (getCachedEntry s now word).1.cache) :
    kv ∈ s.cache := by
  rcases getCachedEntry_state_cases s now word with h2 | ⟨h2, _⟩
  · rw [h2] at h; exact h
  · rw [h2] at h
    exact mem_mapDelete_subset s.cache word kv h

theorem getCachedEntry_entries_inv (s : DictState) (now : Int) (word : String)
    (hinv : s.stats.entries = s.cache.length) :
    (getCachedEntry s now word).1.stats.entries = (getCachedEntry s now word).1.cache.length := by
  rcases getCachedEntry_state_cases s now word with h | ⟨h1, h2, _⟩
  · rw [h]; exact hinv
  · rw [h1, h2]

theorem cleanupExpiredEntries_spec (s : DictState) (now : Int) :
    (cleanupExpiredEntries s now = s) ∨
    ((cleanupExpiredEntries s now).cache =
        ((s.cache.filter (fun kv => decide (cacheExpirationMs < now - kv.2.timestamp))).map
          (fun kv => kv.1)).foldl (fun c k => mapDelete c k) s.cache ∧
     (cleanupExpiredEntries s now).stats.entries = (cleanupExpiredEntries s now).cache.length) := by
  by_cases h : 0 < (s.cache.filter
      (fun kv => decide (cacheExpirationMs < now - kv.2.timestamp))).length
  · right
    constructor <;> simp [cleanupExpiredEntries, h]
  · left
    simp [cleanupExpiredEntries, h]

/-! ## Claim theorems -/

/-- C8: for every input word of length below two, including the empty string,
the dictionary lookup of the hook fails fast: the visible state carries a null
definition and no error, the service state is untouched, and no external fetch
request is issued. -/
theorem claim_C8_theorem (s : DictState) (now : Int) (oracle : FetchResult)
    (word : String) (h : word.length < 2) :
    fetchDefinition s now oracle word =
      { visible := { definition := none, loading := false, error := none }
        service := s, requestsSent := 0 } := by
  unfold fetchDefinition
  rw [if_pos (Or.inr h)]

/-- Witness for C8 at the one-letter word a. -/
theorem claim_C8_witness :
    ("a").length < 2 ∧
    fetchDefinition initialDictState 0 FetchResult.httpError "a" =
      { visible := { definition := none, loading := false, error := none }
        service := initialDictState, requestsSent := 0 } :=
  ⟨by decide, claim_C8_theorem initialDictState 0 FetchResult.httpError "a" (by decide)⟩

/-- C1 counterexample: on the empty cache at the word hello, the caller-visible
state after a transport error is equal to the caller-visible state after a
genuine not-found response, and both show the error text Word not found. This
refutes the claim that the two outcomes reach the caller on distinguishable
paths. -/
theorem claim_C1_counterexample :
    (fetchDefinition initialDictState 0 FetchResult.transportError "hello").visible =
      (fetchDefinition initialDictState 0 FetchResult.httpError "hello").visible ∧
    (fetchDefinition initialDictState 0 FetchResult.transportError "hello").visible.error =
      some "Word not found" := by
  constructor <;> rfl

/-- C1 as amended: the lookup never rejects, and the transport failure path is
not distinguishable from not-found. Whenever no fresh cache entry exists for
the normalized word and the word passes the length guard, a transport error
resolves to null and yields exactly the caller-visible state of a not-found
response, namely a null definition with the error text Word not found. -/
theorem claim_C1_amended (s : DictState) (now : Int) (word : String)
    (hmiss : (getCachedEntry s now (jsTrim (jsToLowerCase word))).2 = none)
    (hlen : 2 ≤ word.length) :
    (fetchWordDefinition s now FetchResult.transportError word).result = none ∧
    (fetchDefinition s now FetchResult.transportError word).visible =
      { definition := none, loading := false, error := some "Word not found" } ∧
    (fetchDefinition s now FetchResult.transportError word).visible =
      (fetchDefinition s now FetchResult.httpError word).visible := by
  have h1 := fetchWordDefinition_miss_err s now FetchResult.transportError word hmiss (Or.inl rfl)
  have h2 := fetchWordDefinition_miss_err s now FetchResult.httpError word hmiss
    (Or.inr (Or.inl rfl))
  have hword : ¬(word = "" ∨ word.length < 2) := by
    rintro (h3 | h3)
    · rw [h3] at hlen
      simp at hlen
    · omega
  refine ⟨by rw [h1], ?_, ?_⟩
  · simp [fetchDefinition, hword, h1]
  · simp [fetchDefinition, hword, h1, h2]

/-- Witness for the amended C1 at the word hello on the empty cache. -/
theorem claim_C1_witness :
    (getCachedEntry initialDictState 0 (jsTrim (jsToLowerCase "hello"))).2 = none ∧
    2 ≤ ("hello").length ∧
    ((fetchWordDefinition initialDictState 0 FetchResult.transportError "hello").result = none ∧
     (fetchDefinition initialDictState 0 FetchResult.transportError "hello").visible =
       { definition := none, loading := false, error := some "Word not found" } ∧
     (fetchDefinition initialDictState 0 FetchResult.transportError "hello").visible =
       (fetchDefinition initialDictState 0 FetchResult.httpError "hello").visible) :=
  ⟨rfl, by decide, claim_C1_amended initialDictState 0 "hello" rfl (by decide)⟩

/-- C3: a cache entry whose age at read time exceeds the ttl is treated as a
miss and is physically removed by that read: getCachedEntry returns none, the
key is gone from the resulting cache, the cache shrinks, and a full lookup at
that instant increments the miss counter. -/
theorem claim_C3_theorem (s : DictState) (now : Int) (oracle : FetchResult)
    (word : String) (entry : CacheEntry)
    (hget : mapGet s.cache word = some entry)
    (hexp : cacheExpirationMs < now - entry.timestamp)
    (hnorm : jsTrim (jsToLowerCase word) = word) :
    (getCachedEntry s now word).2 = none ∧
    mapGet (getCachedEntry s now word).1.cache word = none ∧
    (getCachedEntry s now word).1.cache.length < s.cache.length ∧
    (fetchWordDefinition s now oracle word).state.stats.misses = s.stats.misses + 1 := by
  obtain ⟨h1, h2, h3⟩ := getCachedEntry_expired s now word entry hget hexp
  refine ⟨h1, ?_, ?_, ?_⟩
  · rw [h2]
    exact mapGet_mapDelete_self s.cache word
  · rw [h2]
    exact length_mapDelete_lt_of_get_some s.cache word entry hget
  · have hm : (getCachedEntry s now (jsTrim (jsToLowerCase word))).2 = none := by
      rw [hnorm]; exact h1
    rw [fetchWordDefinition_misses_of_miss s now oracle word hm, hnorm, h3]

/-- Witness for C3: the entry for the word stale, created at time zero, read
one millisecond after the ttl. -/
theorem claim_C3_witness :
    mapGet staleState.cache "stale" = some staleEntry ∧
    cacheExpirationMs < 86400001 - staleEntry.timestamp ∧
    jsTrim (jsToLowerCase "stale") = "stale" ∧
    ((getCachedEntry staleState 86400001 "stale").2 = none ∧
     mapGet (getCachedEntry staleState 86400001 "stale").1.cache "stale" = none ∧
     (getCachedEntry staleState 86400001 "stale").1.cache.length < staleState.cache.length ∧
     (fetchWordDefinition staleState 86400001 FetchResult.httpError "stale").state.stats.misses =
       staleState.stats.misses + 1) :=
  ⟨rfl, by decide, rfl,
    claim_C3_theorem staleState 86400001 FetchResult.httpError "stale" staleEntry rfl
      (by decide) rfl⟩

/-- C5: a lookup of a word holding a fresh cache entry returns the cached
definition, increments the access count of that entry, increments the hit
counter, and issues no external fetch request, for every fetch oracle. -/
theorem claim_C5_theorem (s : DictState) (now : Int) (oracle : FetchResult)
    (word : String) (entry : CacheEntry)
    (hget : mapGet s.cache (jsTrim (jsToLowerCase word)) = some entry)
    (hfresh : ¬ cacheExpirationMs < now - entry.timestamp) :
    (fetchWordDefinition s now oracle word).result = some entry.value ∧
    (fetchWordDefinition s now oracle word).requestsSent = 0 ∧
    mapGet (fetchWordDefinition s now oracle word).state.cache (jsTrim (jsToLowerCase word)) =
      some { entry with accessCount := entry.accessCount + 1 } ∧
    (fetchWordDefinition s now oracle word).state.stats.hits = s.stats.hits + 1 := by
  rw [fetchWordDefinition_hit s now oracle word entry hget hfresh]
  exact ⟨rfl, rfl, mapGet_mapSet_self _ _ _, rfl⟩

/-- Witness for C5: a second read of the word stale shortly after creation,
with a transport-failing oracle, showing no request is even attempted. -/
theorem claim_C5_witness :
    mapGet staleState.cache (jsTrim (jsToLowerCase "stale")) = some staleEntry ∧
    (¬ cacheExpirationMs < 10 - staleEntry.timestamp) ∧
    ((fetchWordDefinition staleState 10 FetchResult.transportError "stale").result =
       some staleEntry.value ∧
     (fetchWordDefinition staleState 10 FetchResult.transportError "stale").requestsSent = 0 ∧
     mapGet (fetchWordDefinition staleState 10 FetchResult.transportError "stale").state.cache
       (jsTrim (jsToLowerCase "stale")) =
       some { staleEntry with accessCount := staleEntry.accessCount + 1 } ∧
     (fetchWordDefinition staleState 10 FetchResult.transportError "stale").state.stats.hits =
       staleState.stats.hits + 1) :=
  ⟨rfl, by decide,
    claim_C5_theorem staleState 10 FetchResult.transportError "stale" staleEntry rfl (by decide)⟩

/-- C9: for every word, state whose cached values hold at most three
definition texts, and fetch outcome, including transport errors, non-2xx
responses and malformed or empty bodies, fetchWordDefinition resolves to
either null or a definition carrying at most three definition texts. -/
theorem claim_C9_theorem (s : DictState) (now : Int) (oracle : FetchResult) (word : String)
    (hinv : ∀ kv ∈ s.cache, kv.2.value.definitions.length ≤ 3) :
    (fetchWordDefinition s now oracle word).result = none ∨
    ∃ d, (fetchWordDefinition s now oracle word).result = some d ∧
      d.definitions.length ≤ 3 := by
  cases hc : (getCachedEntry s now (jsTrim (jsToLowerCase word))).2 with
  | some entry =>
    obtain ⟨heq, hget, hfresh⟩ := getCachedEntry_some s now _ entry hc
    rw [fetchWordDefinition_hit s now oracle word entry hget hfresh]
    right
    exact ⟨entry.value, rfl, hinv _ (mapGet_some_mem s.cache _ entry hget)⟩
  | none =>
    cases oracle with
    | transportError => rw [fetchWordDefinition_miss_err s now _ word hc (Or.inl rfl)]; left; rfl
    | httpError =>
      rw [fetchWordDefinition_miss_err s now _ word hc (Or.inr (Or.inl rfl))]; left; rfl
    | jsonNonArray =>
      rw [fetchWordDefinition_miss_err s now _ word hc (Or.inr (Or.inr (Or.inl rfl)))]; left; rfl
    | jsonArray entries =>
      cases entries with
      | nil =>
        rw [fetchWordDefinition_miss_err s now _ word hc (Or.inr (Or.inr (Or.inr rfl)))]
        left; rfl
      | cons e more =>
        rw [fetchWordDefinition_miss_found s now word e more hc]
        right
        refine ⟨_, rfl, ?_⟩
        simp [buildWordDefinition]

/-- Witness for C9 on the empty cache with a five-definition response body,
showing the result is capped at three definition texts. -/
theorem claim_C9_witness :
    (∀ kv ∈ initialDictState.cache, kv.2.value.definitions.length ≤ 3) ∧
    ((fetchWordDefinition initialDictState 0
        (FetchResult.jsonArray
          [{ meanings :=
               [{ partOfSpeech := "noun"
                  definitions :=
                    [⟨"d1"⟩, ⟨"d2"⟩, ⟨"d3"⟩, ⟨"d4"⟩, ⟨"d5"⟩] }]
             phonetics := [] }]) "hello").result = none ∨
     ∃ d, (fetchWordDefinition initialDictState 0
        (FetchResult.jsonArray
          [{ meanings :=
               [{ partOfSpeech := "noun"
                  definitions :=
                    [⟨"d1"⟩, ⟨"d2"⟩, ⟨"d3"⟩, ⟨"d4"⟩, ⟨"d5"⟩] }]
             phonetics := [] }]) "hello").result = some d ∧
       d.definitions.length ≤ 3) :=
  ⟨by simp [initialDictState],
    claim_C9_theorem initialDictState 0
      (FetchResult.jsonArray
        [{ meanings :=
             [{ partOfSpeech := "noun"
                definitions := [⟨"d1"⟩, ⟨"d2"⟩, ⟨"d3"⟩, ⟨"d4"⟩, ⟨"d5"⟩] }]
           phonetics := [] }]) "hello" (by simp [initialDictState])⟩

/-- C10: if the entries counter equals the number of cache entries, then it
does so again after a lookup with any outcome, after an expired-entry removal
on read, after a periodic cleanup, and after clearCache. -/
theorem claim_C10_theorem (s : DictState) (now : Int) (oracle : FetchResult) (word : String)
    (hinv : s.stats.entries = s.cache.length) :
    (fetchWordDefinition s now oracle word).state.stats.entries =
      (fetchWordDefinition s now oracle word).state.cache.length ∧
    (cleanupExpiredEntries s now).stats.entries = (cleanupExpiredEntries s now).cache.length ∧
    (clearCache s).stats.entries = (clearCache s).cache.length ∧
    (getCachedEntry s now word).1.stats.entries = (getCachedEntry s now word).1.cache.length := by
  refine ⟨?_, ?_, rfl, getCachedEntry_entries_inv s now word hinv⟩
  · cases hc : (getCachedEntry s now (jsTrim (jsToLowerCase word))).2 with
    | some entry =>
      obtain ⟨heq, hget, hfresh⟩ := getCachedEntry_some s now _ entry hc
      rw [fetchWordDefinition_hit s now oracle word entry hget hfresh]
      have := length_mapSet_of_get_some s.cache (jsTrim (jsToLowerCase word))
        { entry with accessCount := entry.accessCount + 1 } entry hget
      simpa [this] using hinv
    | none =>
      have hginv := getCachedEntry_entries_inv s now (jsTrim (jsToLowerCase word)) hinv
      cases oracle with
      | transportError =>
        rw [fetchWordDefinition_miss_err s now _ word hc (Or.inl rfl)]
        exact hginv
      | httpError =>
        rw [fetchWordDefinition_miss_err s now _ word hc (Or.inr (Or.inl rfl))]
        exact hginv
      | jsonNonArray =>
        rw [fetchWordDefinition_miss_err s now _ word hc (Or.inr (Or.inr (Or.inl rfl)))]
        exact hginv
      | jsonArray entries =>
        cases entries with
        | nil =>
          rw [fetchWordDefinition_miss_err s now _ word hc (Or.inr (Or.inr (Or.inr rfl)))]
          exact hginv
        | cons e more =>
          rw [fetchWordDefinition_miss_found s now word e more hc]
          exact setCacheEntry_entries _ _ _ _
  · rcases cleanupExpiredEntries_spec s now with h | ⟨_, h⟩
    · rw [h]; exact hinv
    · exact h

/-- Witness for C10 on the one-entry state with a counter of one. -/
theorem claim_C10_witness :
    staleState.stats.entries = staleState.cache.length ∧
    ((fetchWordDefinition staleState 5 FetchResult.httpError "word").state.stats.entries =
       (fetchWordDefinition staleState 5 FetchResult.httpError "word").state.cache.length ∧
     (cleanupExpiredEntries staleState 5).stats.entries =
       (cleanupExpiredEntries staleState 5).cache.length ∧
     (clearCache staleState).stats.entries = (clearCache staleState).cache.length ∧
     (getCachedEntry staleState 5 "word").1.stats.entries =
       (getCachedEntry staleState 5 "word").1.cache.length) :=
  ⟨rfl, claim_C10_theorem staleState 5 FetchResult.httpError "word" rfl⟩

theorem findWordGo_cons_ws (measure : String → Nat) (rect : Rect) (relX : Int)
    (w : String) (rest : List String) (acc : Int)
    (h : ((!(w.toList.isEmpty)) && w.toList.all jsIsWhitespace) = true) :
    findWordGo measure rect relX (w :: rest) acc =
      findWordGo measure rect relX rest (acc + (measure w : Int)) := by
  simp only [findWordGo]
  rw [if_pos h]

theorem findWordGo_cons_hit (measure : String → Nat) (rect : Rect) (relX : Int)
    (w : String) (rest : List String) (acc : Int)
    (h : ((!(w.toList.isEmpty)) && w.toList.all jsIsWhitespace) = false)
    (hc : acc ≤ relX ∧ relX ≤ acc + (measure w : Int)) :
    findWordGo measure rect relX (w :: rest) acc =
      some { word := jsTrim w, x := rect.left + acc, y := rect.top,
             width := (measure w : Int), height := rect.height } := by
  simp only [findWordGo]
  rw [if_neg (by rw [h]; exact Bool.false_ne_true), if_pos hc]

theorem findWordGo_cons_miss (measure : String → Nat) (rect : Rect) (relX : Int)
    (w : String) (rest : List String) (acc : Int)
    (h : ((!(w.toList.isEmpty)) && w.toList.all jsIsWhitespace) = false)
    (hc : ¬(acc ≤ relX ∧ relX ≤ acc + (measure w : Int))) :
    findWordGo measure rect relX (w :: rest) acc =
      findWordGo measure rect relX rest (acc + (measure w : Int)) := by
  simp only [findWordGo]
  rw [if_neg (by rw [h]; exact Bool.false_ne_true), if_neg hc]

theorem findWordGo_out (measure : String → Nat) (rect : Rect) (relX : Int)
    (toks : List String) :
    ∀ acc : Int,
    (relX < acc ∨ acc + (toks.map (fun t => (measure t : Int))).sum < relX) →
    findWordGo measure rect relX toks acc = none := by
  induction toks with
  | nil => intro acc _; rfl
  | cons w rest ih =>
    intro acc hout
    have hw : (0:Int) ≤ (measure w : Int) := Int.natCast_nonneg _
    have hsum : (0:Int) ≤ (rest.map (fun t => (measure t : Int))).sum := by
      apply List.sum_nonneg
      intro x hx
      obtain ⟨t, ht, he⟩ := List.mem_map.mp hx
      rw [← he]
      exact Int.natCast_nonneg _
    have hnext : relX < acc + (measure w : Int) ∨
        (acc + (measure w : Int)) + (rest.map (fun t => (measure t : Int))).sum < relX := by
      rcases hout with h | h
      · left; omega
      · right
        rw [List.map_cons, List.sum_cons] at h
        omega
    cases hws : ((!(w.toList.isEmpty)) && w.toList.all jsIsWhitespace) with
    | true =>
      rw [findWordGo_cons_ws measure rect relX w rest acc hws]
      exact ih (acc + (measure w : Int)) hnext
    | false =>
      have hcond : ¬(acc ≤ relX ∧ relX ≤ acc + (measure w : Int)) := by
        rcases hout with h | h
        · intro hc; omega
        · intro hc
          rw [List.map_cons, List.sum_cons] at h
          omega
      rw [findWordGo_cons_miss measure rect relX w rest acc hws hcond]
      exact ih (acc + (measure w : Int)) hnext

/-- C7: for every multi-token text run and every pointer x-offset strictly
outside the closed interval from zero to the accumulated token widths, the
resolver returns null rather than clamping the position to an edge token. -/
theorem claim_C7_theorem (measure : String → Nat) (rect : Rect) (content : String)
    (mouseX : Int)
    (hmulti : 1 < (splitOnWS (jsTrim content)).length)
    (hout : mouseX - rect.left < 0 ∨ runWidth measure (jsTrim content) < mouseX - rect.left) :
    extractWordAtPosition measure rect content mouseX = none := by
  have hfind : findWordAtMousePosition measure rect (jsTrim content) mouseX = none := by
    unfold findWordAtMousePosition
    apply findWordGo_out
    rcases hout with h | h
    · left; exact h
    · right
      rw [zero_add]
      exact h
  simp [extractWordAtPosition, hmulti, hfind]

/-- Witness for C7: the run Hello, world with the pointer ten pixels left of
the run, and also ten pixels right of the accumulated width. -/
theorem claim_C7_witness :
    (1 < (splitOnWS (jsTrim "Hello, world")).length ∧
      (90 - c7Rect.left < 0 ∨
        runWidth c7Measure (jsTrim "Hello, world") < 90 - c7Rect.left) ∧
      extractWordAtPosition c7Measure c7Rect "Hello, world" 90 = none) ∧
    (230 - c7Rect.left < 0 ∨
        runWidth c7Measure (jsTrim "Hello, world") < 230 - c7Rect.left) ∧
    extractWordAtPosition c7Measure c7Rect "Hello, world" 230 = none :=
  ⟨⟨by decide, Or.inl (by decide),
      claim_C7_theorem c7Measure c7Rect "Hello, world" 90 (by decide) (Or.inl (by decide))⟩,
    Or.inr (by decide),
    claim_C7_theorem c7Measure c7Rect "Hello, world" 230 (by decide) (Or.inr (by decide))⟩

/-- C6 counterexample: the normalization keeps the underscore, a
non-alphanumeric character, so it does not strip all non-alphanumeric
characters as claimed. -/
theorem claim_C6_counterexample :
    cleanWord "a_b" = "a_b" ∧ cleanWord "a_b" ≠ "ab" := by
  exact ⟨rfl, by decide⟩

theorem foldr_filter_map (p : Char → Bool) (f : Char → Char) (l : List Char) :
    l.foldr (fun c acc => if p c then f c :: acc else acc) [] = (l.filter p).map f := by
  induction l with
  | nil => rfl
  | cons c rest ih =>
    by_cases h : p c
    · simp [List.foldr_cons, List.filter_cons, h, ih]
    · simp [List.foldr_cons, List.filter_cons, h, ih]

/-- C6 as amended: with the pointer over the horizontal span of the first
word of the run Hello, world, the resolver returns the word hello, comma
stripped and lowercased, with a bounding box whose left edge equals the left
edge of the run; and in general normalization strips every character other
than ASCII letters, digits and the underscore, and lowercases the rest. -/
theorem claim_C6_amended (measure : String → Nat) (rect : Rect) (mouseX : Int) (t : String)
    (h1 : 0 ≤ mouseX - rect.left)
    (h2 : mouseX - rect.left ≤ (measure "Hello," : Int)) :
    extractWordAtPosition measure rect "Hello, world" mouseX =
      some { word := "hello", x := rect.left, y := rect.top,
             width := (measure "Hello," : Int), height := rect.height } ∧
    cleanWord t = specNormalize t := by
  constructor
  · have htrim : jsTrim "Hello, world" = "Hello, world" := rfl
    have hsplit : splitOnWS "Hello, world" = ["Hello,", "world"] := rfl
    have hkeep : splitKeepWS "Hello, world" = ["Hello,", " ", "world"] := rfl
    have hws : ((!(("Hello,").toList.isEmpty)) && ("Hello,").toList.all jsIsWhitespace) = false :=
      rfl
    have hcond : (0:Int) ≤ mouseX - rect.left ∧
        mouseX - rect.left ≤ 0 + (measure "Hello," : Int) := by
      constructor
      · exact h1
      · rw [zero_add]; exact h2
    have hgo : findWordGo measure rect (mouseX - rect.left) ["Hello,", " ", "world"] 0 =
        some { word := jsTrim "Hello,", x := rect.left + 0, y := rect.top,
               width := (measure "Hello," : Int), height := rect.height } :=
      findWordGo_cons_hit measure rect (mouseX - rect.left) "Hello," [" ", "world"] 0 hws hcond
    have hfind : findWordAtMousePosition measure rect "Hello, world" mouseX =
        some { word := "Hello,", x := rect.left, y := rect.top,
               width := (measure "Hello," : Int), height := rect.height } := by
      unfold findWordAtMousePosition
      rw [hkeep, hgo]
      rw [show jsTrim "Hello," = "Hello," from rfl, add_zero]
    have heng : isEnglishWord "Hello," = true := rfl
    have hclean : cleanWord "Hello," = "hello" := rfl
    simp [extractWordAtPosition, htrim, hsplit, hfind, heng, hclean]
  · show cleanWord t = specNormalize t
    unfold cleanWord specNormalize
    rw [foldr_filter_map]
    rfl

/-- Witness for the amended C6: pointer at thirty pixels over a run starting
at one hundred, with the ten-pixels-per-character width function, and the
normalization instance a_b! where the underscore is kept. -/
theorem claim_C6_witness :
    (0 ≤ (130:Int) - c7Rect.left) ∧
    ((130:Int) - c7Rect.left ≤ (c7Measure "Hello," : Int)) ∧
    (extractWordAtPosition c7Measure c7Rect "Hello, world" 130 =
      some { word := "hello", x := c7Rect.left, y := c7Rect.top,
             width := (c7Measure "Hello," : Int), height := c7Rect.height } ∧
     cleanWord "a_b!" = specNormalize "a_b!") :=
  ⟨by decide, by decide,
    claim_C6_amended c7Measure c7Rect 130 "a_b!" (by decide) (by decide)⟩

theorem aKey_injective : Function.Injective aKey := by
  intro a b h
  have h2 : List.replicate a 'a' = List.replicate b 'a' := congrArg String.data h
  have h3 := congrArg List.length h2
  simpa using h3

theorem aKey_succ_ne_empty (i : Nat) : aKey (i + 1) ≠ "" := by
  intro h
  have h2 : List.replicate (i + 1) 'a' = ("").data := congrArg String.data h
  rw [List.replicate_succ] at h2
  simp at h2

theorem aKey_succ_ne_bb (i : Nat) : aKey (i + 1) ≠ "bb" := by
  intro h
  have h2 : List.replicate (i + 1) 'a' = ("bb").data := congrArg String.data h
  rw [List.replicate_succ, show ("bb").data = ['b', 'b'] from rfl] at h2
  injection h2 with h3 h4
  exact absurd h3 (by decide)

theorem load_foldl_length (l : List (String × CacheEntry)) :
    ∀ c : List (String × CacheEntry),
    (∀ kv ∈ l, mapGet c kv.1 = none) → (l.map (fun kv => kv.1)).Nodup →
    (l.foldl (fun c kv => mapSet c kv.1 kv.2) c).length = c.length + l.length := by
  induction l with
  | nil => intro c _ _; simp
  | cons kv rest ih =>
    intro c hfresh hnd
    have h1 : mapGet c kv.1 = none := hfresh kv (List.mem_cons_self _ _)
    have hnd2 : kv.1 ∉ rest.map (fun kv => kv.1) ∧ (rest.map (fun kv => kv.1)).Nodup := by
      simpa [List.nodup_cons] using hnd
    have hfresh2 : ∀ kv2 ∈ rest, mapGet (mapSet c kv.1 kv.2) kv2.1 = none := by
      intro kv2 hm
      have hne : kv2.1 ≠ kv.1 := by
        intro he
        exact hnd2.1 (he ▸ List.mem_map.mpr ⟨kv2, hm, rfl⟩)
      rw [mapGet_mapSet_ne c kv.1 kv2.1 kv.2 hne]
      exact hfresh kv2 (List.mem_cons_of_mem _ hm)
    rw [List.foldl_cons, ih (mapSet c kv.1 kv.2) hfresh2 hnd2.2,
      length_mapSet_of_get_none c kv.1 kv.2 h1]
    simp [Nat.add_assoc, Nat.add_comm 1 rest.length]

/-- C4 counterexample: rehydration from a well-formed stored snapshot that
holds 1001 entries produces a cache of 1001 entries, above the bound of
maxEntries, so the size bound is not preserved by rehydration from persistent
storage. -/
theorem loadCacheFromStorage_cache (s : DictState) (data : StoredData) :
    (loadCacheFromStorage s (some data)).cache =
      data.cache.foldl (fun c kv => mapSet c kv.1 kv.2) s.cache := rfl

theorem claim_C4_counterexample :
    (loadCacheFromStorage initialDictState (some c4Stored)).cache.length = 1001 ∧
    maxCacheSize < 1001 := by
  constructor
  · have hnd : (c4Stored.cache.map (fun kv => kv.1)).Nodup := by
      have hmap : c4Stored.cache.map (fun kv => kv.1) = (List.range 1001).map aKey := by
        simp [c4Stored, List.map_map]
      rw [hmap]
      exact List.Nodup.map aKey_injective (List.nodup_range 1001)
    have hfresh : ∀ kv ∈ c4Stored.cache, mapGet initialDictState.cache kv.1 = none :=
      fun kv _ => rfl
    have hload := load_foldl_length c4Stored.cache initialDictState.cache hfresh hnd
    rw [loadCacheFromStorage_cache, hload]
    simp [c4Stored, initialDictState]
  · norm_num [maxCacheSize]

/-- C4 as amended: provided no present cache key is the empty string, every
cache operation of the service itself, namely read, insert, the expired-entry
removal of a read, the periodic sweep, and clearCache, preserves the bound of
maxEntries entries; rehydration from persistent storage, however, copies the
stored entries without enforcing the bound and can exceed it. -/
theorem claim_C4_amended (s : DictState) (now : Int) (oracle : FetchResult) (word : String)
    (d : WordDefinition)
    (hlen : s.cache.length ≤ maxCacheSize)
    (hne : ∀ kv ∈ s.cache, kv.1 ≠ "") :
    (getCachedEntry s now word).1.cache.length ≤ maxCacheSize ∧
    (setCacheEntry s now word d).cache.length ≤ maxCacheSize ∧
    (fetchWordDefinition s now oracle word).state.cache.length ≤ maxCacheSize ∧
    (cleanupExpiredEntries s now).cache.length ≤ maxCacheSize ∧
    (clearCache s).cache.length ≤ maxCacheSize := by
  refine ⟨le_trans (getCachedEntry_cache_le s now word) hlen,
    setCacheEntry_bound s now word d hlen hne, ?_, ?_, by simp [clearCache]⟩
  · cases hc : (getCachedEntry s now (jsTrim (jsToLowerCase word))).2 with
    | some entry =>
      obtain ⟨heq, hget, hfresh⟩ := getCachedEntry_some s now _ entry hc
      rw [fetchWordDefinition_hit s now oracle word entry hget hfresh]
      have hpres := length_mapSet_of_get_some s.cache (jsTrim (jsToLowerCase word))
        { entry with accessCount := entry.accessCount + 1 } entry hget
      show (mapSet s.cache (jsTrim (jsToLowerCase word))
        { entry with accessCount := entry.accessCount + 1 }).length ≤ maxCacheSize
      rw [hpres]
      exact hlen
    | none =>
      have hlen2 : (getCachedEntry s now (jsTrim (jsToLowerCase word))).1.cache.length
          ≤ maxCacheSize := le_trans (getCachedEntry_cache_le s now _) hlen
      have hne2 : ∀ kv ∈ (getCachedEntry s now (jsTrim (jsToLowerCase word))).1.cache,
          kv.1 ≠ "" :=
        fun kv hm => hne kv (getCachedEntry_keys_subset s now _ kv hm)
      cases oracle with
      | transportError =>
        rw [fetchWordDefinition_miss_err s now _ word hc (Or.inl rfl)]
        exact hlen2
      | httpError =>
        rw [fetchWordDefinition_miss_err s now _ word hc (Or.inr (Or.inl rfl))]
        exact hlen2
      | jsonNonArray =>
        rw [fetchWordDefinition_miss_err s now _ word hc (Or.inr (Or.inr (Or.inl rfl)))]
        exact hlen2
      | jsonArray entries =>
        cases entries with
        | nil =>
          rw [fetchWordDefinition_miss_err s now _ word hc (Or.inr (Or.inr (Or.inr rfl)))]
          exact hlen2
        | cons e more =>
          rw [fetchWordDefinition_miss_found s now word e more hc]
          exact setCacheEntry_bound _ now _ _ hlen2 hne2
  · rcases cleanupExpiredEntries_spec s now with h | ⟨h, _⟩
    · rw [h]
      exact hlen
    · rw [h]
      exact le_trans (foldl_mapDelete_le _ s.cache) hlen

/-- Witness for the amended C4 on the one-entry state. -/
theorem claim_C4_witness :
    staleState.cache.length ≤ maxCacheSize ∧
    (∀ kv ∈ staleState.cache, kv.1 ≠ "") ∧
    ((getCachedEntry staleState 5 "word").1.cache.length ≤ maxCacheSize ∧
     (setCacheEntry staleState 5 "word" dummyDef).cache.length ≤ maxCacheSize ∧
     (fetchWordDefinition staleState 5 FetchResult.httpError "word").state.cache.length
       ≤ maxCacheSize ∧
     (cleanupExpiredEntries staleState 5).cache.length ≤ maxCacheSize ∧
     (clearCache staleState).cache.length ≤ maxCacheSize) :=
  ⟨by decide, by decide,
    claim_C4_amended staleState 5 FetchResult.httpError "word" dummyDef (by decide) (by decide)⟩

/-- C2 counterexample: a full cache whose eviction scan selects the
empty-string key. The truthiness guard of the source skips the delete for
that key, so inserting one more distinct word evicts nothing and the cache
grows to 1001 entries instead of evicting exactly one entry. -/
theorem claim_C2_counterexample :
    c2State.cache.length = maxCacheSize ∧
    evictLeastRecentlyUsed c2State.cache = c2State.cache ∧
    (setCacheEntry c2State 200 "bb" dummyDef).cache.length = maxCacheSize + 1 := by
  have hlen : c2State.cache.length = maxCacheSize := by
    simp [c2State, maxCacheSize]
  have hkey : evictKeyOf c2State.cache = some "" := by
    have hkeep := evict_fold_keep
      ((List.range 999).map (fun i =>
        (aKey (i + 1), ({ value := dummyDef, timestamp := 100, accessCount := 1 } : CacheEntry))))
      "" 1 0 (by
        intro kv hm
        obtain ⟨i, hi, he⟩ := List.mem_map.mp hm
        rw [← he]
        simp)
    show ((c2State.cache).foldl evictStep none).map (fun r => r.1) = some ""
    rw [show c2State.cache =
      ("", ({ value := dummyDef, timestamp := 0, accessCount := 1 } : CacheEntry)) ::
        (List.range 999).map (fun i =>
          (aKey (i + 1),
            ({ value := dummyDef, timestamp := 100, accessCount := 1 } : CacheEntry))) from rfl]
    rw [List.foldl_cons]
    rw [show evictStep none
      ("", ({ value := dummyDef, timestamp := 0, accessCount := 1 } : CacheEntry)) =
        some ("", 1, 0) from rfl]
    rw [hkeep]
    rfl
  have hev : evictLeastRecentlyUsed c2State.cache = c2State.cache := by
    simp [evictLeastRecentlyUsed, hkey]
  refine ⟨hlen, hev, ?_⟩
  have hbb : mapGet c2State.cache "bb" = none := by
    apply mapGet_none_of_forall_ne
    intro kv hm
    simp only [c2State] at hm
    rcases List.mem_cons.mp hm with h2 | h2
    · rw [h2]
      decide
    · obtain ⟨i, hi, he⟩ := List.mem_map.mp h2
      rw [← he]
      exact aKey_succ_ne_bb i
  rw [setCacheEntry_cache, if_pos (le_of_eq hlen.symm), hev,
    length_mapSet_of_get_none c2State.cache "bb" _ hbb, hlen]

/-- C2 as amended: for every cache state of exactly maxEntries entries whose
keys are pairwise distinct and nonempty, inserting one more distinct word
evicts exactly one existing entry: the cache stays at maxEntries, the evicted
key disappears, every other entry is untouched, the new word is present, and
the evicted entry has the least access count among all entries with ties
broken by the oldest creation timestamp. -/
theorem claim_C2_amended (s : DictState) (now : Int) (word : String) (d : WordDefinition)
    (hnd : keysNodup s.cache)
    (hlen : s.cache.length = maxCacheSize)
    (hne : ∀ kv ∈ s.cache, kv.1 ≠ "")
    (hnew : mapGet s.cache word = none) :
    (setCacheEntry s now word d).cache.length = maxCacheSize ∧
    ∃ k e, (k, e) ∈ s.cache ∧
      mapGet (setCacheEntry s now word d).cache k = none ∧
      (∀ kv ∈ s.cache, e.accessCount < kv.2.accessCount ∨
        (e.accessCount = kv.2.accessCount ∧ e.timestamp ≤ kv.2.timestamp)) ∧
      (∀ kv ∈ s.cache, kv.1 ≠ k →
        mapGet (setCacheEntry s now word d).cache kv.1 = mapGet s.cache kv.1) ∧
      mapGet (setCacheEntry s now word d).cache word =
        some { value := d, timestamp := now, accessCount := 1 } := by
  have hful : maxCacheSize ≤ s.cache.length := le_of_eq hlen.symm
  have hnonnil : s.cache ≠ [] := by
    intro h0
    rw [h0] at hlen
    simp [maxCacheSize] at hlen
  obtain ⟨k, e, hkey, hmem, hmin⟩ := evictKeyOf_spec s.cache hnonnil
  have hkne : k ≠ "" := hne (k, e) hmem
  have hev : evictLeastRecentlyUsed s.cache = mapDelete s.cache k := by
    simp [evictLeastRecentlyUsed, hkey, hkne]
  have hcache : (setCacheEntry s now word d).cache =
      mapSet (mapDelete s.cache k) word { value := d, timestamp := now, accessCount := 1 } := by
    rw [setCacheEntry_cache, if_pos hful, hev]
  have hkget : mapGet s.cache k = some e := mapGet_of_mem_nodup s.cache k e hnd hmem
  have hkw : word ≠ k := by
    intro hcontra
    rw [hcontra, hkget] at hnew
    exact Option.noConfusion hnew
  have hdelnew : mapGet (mapDelete s.cache k) word = none := by
    rw [mapGet_mapDelete_ne s.cache k word hkw]
    exact hnew
  constructor
  · rw [hcache, length_mapSet_of_get_none _ _ _ hdelnew]
    have := length_mapDelete_nodup s.cache k e hnd hkget
    omega
  · refine ⟨k, e, hmem, ?_, hmin, ?_, ?_⟩
    · rw [hcache, mapGet_mapSet_ne _ word k _ (Ne.symm hkw), mapGet_mapDelete_self]
    · intro kv hm hkvne
      have hkvw : kv.1 ≠ word := forall_ne_of_mapGet_none s.cache word hnew kv hm
      rw [hcache, mapGet_mapSet_ne _ word kv.1 _ hkvw,
        mapGet_mapDelete_ne s.cache k kv.1 hkvne]
    · rw [hcache, mapGet_mapSet_self]

theorem c2WitState_nodup : keysNodup c2WitState.cache := by
  have hmap : c2WitState.cache.map (fun kv => kv.1) =
      (List.range 1000).map (fun i => aKey (i + 1)) := by
    simp [c2WitState, List.map_map]
  rw [keysNodup, hmap]
  refine List.Nodup.map ?_ (List.nodup_range 1000)
  intro a b h
  exact Nat.succ_injective (aKey_injective h)

theorem c2WitState_len : c2WitState.cache.length = maxCacheSize := by
  simp [c2WitState, maxCacheSize]

theorem c2WitState_keys_ne_empty : ∀ kv ∈ c2WitState.cache, kv.1 ≠ "" := by
  intro kv hm
  simp only [c2WitState] at hm
  obtain ⟨i, hi, he⟩ := List.mem_map.mp hm
  rw [← he]
  exact aKey_succ_ne_empty i

theorem c2WitState_no_bb : mapGet c2WitState.cache "bb" = none := by
  apply mapGet_none_of_forall_ne
  intro kv hm
  simp only [c2WitState] at hm
  obtain ⟨i, hi, he⟩ := List.mem_map.mp hm
  rw [← he]
  exact aKey_succ_ne_bb i

/-- Witness for the amended C2: a full cache of 1000 distinct nonempty keys
receiving the fresh word bb. -/
theorem claim_C2_witness :
    keysNodup c2WitState.cache ∧
    c2WitState.cache.length = maxCacheSize ∧
    (∀ kv ∈ c2WitState.cache, kv.1 ≠ "") ∧
    mapGet c2WitState.cache "bb" = none ∧
    ((setCacheEntry c2WitState 300 "bb" dummyDef).cache.length = maxCacheSize ∧
     ∃ k e, (k, e) ∈ c2WitState.cache ∧
       mapGet (setCacheEntry c2WitState 300 "bb" dummyDef).cache k = none ∧
       (∀ kv ∈ c2WitState.cache, e.accessCount < kv.2.accessCount ∨
         (e.accessCount = kv.2.accessCount ∧ e.timestamp ≤ kv.2.timestamp)) ∧
       (∀ kv ∈ c2WitState.cache, kv.1 ≠ k →
         mapGet (setCacheEntry c2WitState 300 "bb" dummyDef).cache kv.1 =
           mapGet c2WitState.cache kv.1) ∧
       mapGet (setCacheEntry c2WitState 300 "bb" dummyDef).cache "bb" =
         some { value := dummyDef, timestamp := 300, accessCount := 1 }) :=
  ⟨c2WitState_nodup, c2WitState_len, c2WitState_keys_ne_empty, c2WitState_no_bb,
    claim_C2_amended c2WitState 300 "bb" dummyDef c2WitState_nodup c2WitState_len
      c2WitState_keys_ne_empty c2WitState_no_bb⟩

end Docpeak
